import Mathlib

/-!
Verification of the `numth` modular-arithmetic core against its design
documentation.

The Python source is shallowly embedded: Python's arbitrary-precision `int`
becomes `Int`, Python's floor division `//` becomes `Int.fdiv`, Python's `%`
becomes `Int.fmod`, and functions that may raise return `Except Err`.
Loops that may fail to terminate are given explicit fuel and return
`Option`.
-/

deriving instance DecidableEq for Except

namespace Numth

/-- Error kinds raised by the core (`ValueError`s in the source), plus
`nameError` for the `NameError` Python raises when an error-message
format string references names that are not in scope. -/
inductive Err where
  | divisionByZero
  | undefinedGCD
  | undefinedLCM
  | notInvertible
  | invalidModulus
  | invalidBase
  | nameError
  deriving DecidableEq, Repr

/-- The default-mode body of `div` (numth.py): `num//div, num%div` when
`div > 0 or num == 0`, otherwise `num//div + 1, (num%div) + abs(div)`. -/
def divDefault (num d : Int) : Int × Int :=
  if 0 < d ∨ num = 0 then (num.fdiv d, num.fmod d)
  else (num.fdiv d + 1, num.fmod d + (d.natAbs : Int))

/-- The `METHOD == 'SMALL'` adjustment of `div` (numth.py): starting from
the default pair, if `r > abs(div)//2` then `q += div // abs(div)` and
`r -= abs(div)`. -/
def divSmall (num d : Int) : Int × Int :=
  let qr := divDefault num d
  if (d.natAbs : Int).fdiv 2 < qr.2 then
    (qr.1 + d.fdiv (d.natAbs : Int), qr.2 - (d.natAbs : Int))
  else qr

/-- Function `div(num, div, METHOD)` from numth.py: raises on a zero divisor,
otherwise returns the quotient/remainder pair for the selected mode
(`small = true` models `METHOD == 'SMALL'`). -/
def div (num d : Int) (small : Bool) : Except Err (Int × Int) :=
  if d = 0 then .error .divisionByZero
  else .ok (if small then divSmall num d else divDefault num d)

/-! ### Floor-mod bounds for a negative divisor -/

theorem fmod_nonpos_of_neg (a : Int) {b : Int} (hb : b < 0) : a.fmod b ≤ 0 := by
  match a, b with
  | _, .ofNat n =>
    rw [Int.ofNat_eq_coe] at hb
    exact absurd hb (by omega)
  | .ofNat 0, .negSucc n => simp [Int.fmod]
  | .ofNat (m+1), .negSucc n =>
    show Int.subNatNat (m % (n+1)) n ≤ 0
    rw [Int.subNatNat_eq_coe]
    have : m % (n+1) < n + 1 := Nat.mod_lt _ (by omega)
    omega
  | .negSucc m, .negSucc n =>
    show -(((m+1) % (n+1) : Nat) : Int) ≤ 0
    omega

theorem lt_fmod_of_neg (a : Int) {b : Int} (hb : b < 0) : b < a.fmod b := by
  match a, b with
  | _, .ofNat n =>
    rw [Int.ofNat_eq_coe] at hb
    exact absurd hb (by omega)
  | .ofNat 0, .negSucc n =>
    show Int.negSucc n < 0
    exact Int.negSucc_lt_zero n
  | .ofNat (m+1), .negSucc n =>
    show Int.negSucc n < Int.subNatNat (m % (n+1)) n
    rw [Int.subNatNat_eq_coe, Int.negSucc_eq]
    omega
  | .negSucc m, .negSucc n =>
    show Int.negSucc n < -(((m+1) % (n+1) : Nat) : Int)
    rw [Int.negSucc_eq]
    have : (m+1) % (n+1) < n + 1 := Nat.mod_lt _ (by omega)
    omega

/-! ### Specification of the division core -/

/-- The default-mode pair always satisfies the division identity, and its
remainder lies in `[0, |d|]` — the upper end `|d|` included (it is attained
exactly when `d < 0` divides `num ≠ 0`, see `c1_div_default_remainder`). -/
theorem divDefault_spec (num d : Int) (hd : d ≠ 0) :
    num = (divDefault num d).1 * d + (divDefault num d).2 ∧
      0 ≤ (divDefault num d).2 ∧ (divDefault num d).2 ≤ (d.natAbs : Int) := by
  unfold divDefault
  by_cases h : 0 < d ∨ num = 0
  · rw [if_pos h]
    by_cases h' : num = 0
    · subst h'
      refine ⟨by simp, by simp, by simp⟩
    · have hdpos : 0 < d := by tauto
      have hid := Int.fdiv_add_fmod num d
      rw [Int.mul_comm] at hid
      have h1 := Int.fmod_nonneg' num hdpos
      have h2 := Int.fmod_lt_of_pos num hdpos
      refine ⟨?_, ?_, ?_⟩
      · show num = num.fdiv d * d + num.fmod d
        omega
      · show 0 ≤ num.fmod d
        omega
      · show num.fmod d ≤ (d.natAbs : Int)
        omega
  · rw [if_neg h]
    push_neg at h
    have hdneg : d < 0 := by omega
    have hid := Int.fdiv_add_fmod num d
    have key : (num.fdiv d + 1) * d = d * num.fdiv d + d := by ring
    have h1 := fmod_nonpos_of_neg num hdneg
    have h2 := lt_fmod_of_neg num hdneg
    refine ⟨?_, ?_, ?_⟩
    · show num = (num.fdiv d + 1) * d + (num.fmod d + (d.natAbs : Int))
      rw [key]
      omega
    · show 0 ≤ num.fmod d + (d.natAbs : Int)
      omega
    · show num.fmod d + (d.natAbs : Int) ≤ (d.natAbs : Int)
      omega

/-- The quotient `d // abs(d)` is the sign of a nonzero `d`, so `d * (d // abs(d)) = |d|`. -/
theorem mul_fdiv_natAbs (d : Int) (hd : d ≠ 0) :
    d * (d.fdiv (d.natAbs : Int)) = (d.natAbs : Int) := by
  rcases Int.natAbs_eq d with h | h
  · have : d.fdiv (d.natAbs : Int) = 1 := by
      rw [← h]; exact Int.fdiv_self hd
    rw [this]; omega
  · have habs : (d.natAbs : Int) = -d := by omega
    have hneg : d < 0 := by omega
    have : d.fdiv (d.natAbs : Int) = -1 := by
      rw [habs, Int.fdiv_eq_ediv _ (by omega), Int.ediv_neg, Int.ediv_self hd]
    rw [this]; omega

/-- The SMALL-mode pair satisfies the division identity and the balanced
remainder range `-|d| < 2r ≤ |d|`. -/
theorem divSmall_spec (num d : Int) (hd : d ≠ 0) :
    num = (divSmall num d).1 * d + (divSmall num d).2 ∧
      -(d.natAbs : Int) < 2 * (divSmall num d).2 ∧
      2 * (divSmall num d).2 ≤ (d.natAbs : Int) := by
  obtain ⟨hid, hr0, hr1⟩ := divDefault_spec num d hd
  have habs : (1:Int) ≤ (d.natAbs : Int) := by
    have := Int.natAbs_pos.mpr hd
    omega
  have hfd : ((d.natAbs : Int)).fdiv 2 = (d.natAbs : Int) / 2 :=
    Int.fdiv_eq_ediv _ (by omega)
  have hds : divSmall num d =
      if ((d.natAbs : Int)).fdiv 2 < (divDefault num d).2 then
        ((divDefault num d).1 + d.fdiv (d.natAbs : Int),
          (divDefault num d).2 - (d.natAbs : Int))
      else divDefault num d := rfl
  rw [hds]
  by_cases h : ((d.natAbs : Int)).fdiv 2 < (divDefault num d).2
  · rw [if_pos h]
    rw [hfd] at h
    have hsign := mul_fdiv_natAbs d hd
    refine ⟨?_, ?_, ?_⟩
    · show num = ((divDefault num d).1 + d.fdiv (d.natAbs : Int)) * d +
        ((divDefault num d).2 - (d.natAbs : Int))
      have hkey : ((divDefault num d).1 + d.fdiv (d.natAbs : Int)) * d =
          (divDefault num d).1 * d + d * (d.fdiv (d.natAbs : Int)) := by ring
      rw [hkey, hsign]
      omega
    · show -(d.natAbs : Int) < 2 * ((divDefault num d).2 - (d.natAbs : Int))
      omega
    · show 2 * ((divDefault num d).2 - (d.natAbs : Int)) ≤ (d.natAbs : Int)
      omega
  · rw [if_neg h]
    rw [hfd] at h
    refine ⟨hid, by omega, by omega⟩

/-- The SMALL remainder is strictly smaller than the divisor in absolute
value (this is what makes the Euclidean loops terminate). -/
theorem divSmall_natAbs_lt (num d : Int) (hd : d ≠ 0) :
    (divSmall num d).2.natAbs < d.natAbs := by
  obtain ⟨-, h1, h2⟩ := divSmall_spec num d hd
  have := Int.natAbs_pos.mpr hd
  omega

/-- C1: in default mode the division identity holds, but the remainder can
equal `|denom|`: for `num = 6`, `denom = -3` the code returns `(-1, 3)`
with `r = 3 = |denom|`, violating `0 ≤ r < |denom|`. -/
theorem c1_div_default_remainder :
    div 6 (-3) false = Except.ok (-1, 3) ∧ ¬((3:Int) < ((-3:Int).natAbs : Int)) := by
  constructor
  · decide
  · decide

/-- C7: for every `num` and nonzero `denom`, SMALL mode returns `(q, r)`
with `num = q * denom + r` and `-|denom| < 2r ≤ |denom|` (that is,
`-|denom|/2 < r ≤ |denom|/2`). -/
theorem c7_div_small (num d : Int) (hd : d ≠ 0) :
    ∃ q r, div num d true = Except.ok (q, r) ∧ num = q * d + r ∧
      -(d.natAbs : Int) < 2 * r ∧ 2 * r ≤ (d.natAbs : Int) := by
  obtain ⟨hid, h1, h2⟩ := divSmall_spec num d hd
  refine ⟨(divSmall num d).1, (divSmall num d).2, ?_, hid, h1, h2⟩
  unfold div
  rw [if_neg hd]
  rfl

/-- Witness for C7 at `num = 7`, `denom = -3`. -/
theorem c7_div_small_witness :
    (-3 : Int) ≠ 0 ∧
      ∃ q r, div 7 (-3) true = Except.ok (q, r) ∧ (7:Int) = q * (-3) + r ∧
        -(((-3):Int).natAbs : Int) < 2 * r ∧ 2 * r ≤ (((-3):Int).natAbs : Int) :=
  ⟨by decide, c7_div_small 7 (-3) (by decide)⟩

/-! ### Euclidean suite -/

/-- The `while b_ != 0` loop of `gcd` (numth.py): replace `(a, b)` by
`(b, small remainder of a by b)` until the second component is zero, then
return the absolute value of the first. -/
def gcdLoop (a b : Int) : Int :=
  if h : b = 0 then (a.natAbs : Int)
  else gcdLoop b (divSmall a b).2
termination_by b.natAbs
decreasing_by exact divSmall_natAbs_lt a b h

/-- Function `gcd(a, b)` from numth.py: raises on `(0, 0)`, otherwise runs the
Euclidean loop with SMALL-mode remainders. -/
def gcd (a b : Int) : Except Err Int :=
  if a = 0 ∧ b = 0 then .error .undefinedGCD else .ok (gcdLoop a b)

/-- One Euclidean step preserves the gcd: if `a = q * b + r` then
`gcd b r = gcd a b`. -/
theorem gcd_step (a b q r : Int) (h : a = q * b + r) : Int.gcd b r = Int.gcd a b := by
  apply Nat.dvd_antisymm
  · apply Int.natCast_dvd_natCast.mp
    apply Int.dvd_gcd
    · have hb : (↑(Int.gcd b r) : Int) ∣ b := Int.gcd_dvd_left
      have hr : (↑(Int.gcd b r) : Int) ∣ r := Int.gcd_dvd_right
      rw [h]
      exact dvd_add (Dvd.dvd.mul_left hb q) hr
    · exact Int.gcd_dvd_left
  · apply Int.natCast_dvd_natCast.mp
    apply Int.dvd_gcd
    · exact Int.gcd_dvd_right
    · have ha : (↑(Int.gcd a b) : Int) ∣ a := Int.gcd_dvd_left
      have hb : (↑(Int.gcd a b) : Int) ∣ b := Int.gcd_dvd_right
      have hr : r = a - q * b := by omega
      rw [hr]
      exact dvd_sub ha (Dvd.dvd.mul_left hb q)

/-- The Euclidean loop computes the mathematical gcd. -/
theorem gcdLoop_eq_gcd (a b : Int) : gcdLoop a b = (Int.gcd a b : Int) := by
  induction a, b using gcdLoop.induct with
  | case1 a =>
    rw [gcdLoop, dif_pos rfl]
    simp [Int.gcd]
  | case2 a b hb ih =>
    rw [gcdLoop, dif_neg hb, ih]
    obtain ⟨hid, -, -⟩ := divSmall_spec a b hb
    rw [gcd_step a b (divSmall a b).1 (divSmall a b).2 hid]

/-- The Euclidean loop is positive unless both arguments are zero. -/
theorem gcdLoop_pos (a b : Int) (h : ¬(a = 0 ∧ b = 0)) : 0 < gcdLoop a b := by
  rw [gcdLoop_eq_gcd]
  have : Int.gcd a b ≠ 0 := by
    intro hg
    rcases Int.gcd_eq_zero_iff.mp hg with ⟨h1, h2⟩
    exact h ⟨h1, h2⟩
  omega

/-- The `while r != 0` loop of `bezout` (numth.py).  State `(b, r)` is the
current dividend/divisor pair, `(xx, x)` and `(yy, y)` the coefficient
recurrences; on exit the code returns `(xx, yy)`. -/
def bezoutLoop (b r xx x yy y : Int) : Int × Int :=
  if h : r = 0 then (xx, yy)
  else
    bezoutLoop r (divSmall b r).2 x (-(divSmall b r).1 * x + xx)
      y (-(divSmall b r).1 * y + yy)
termination_by r.natAbs
decreasing_by exact divSmall_natAbs_lt b r h

/-- Function `bezout(a, b)` from numth.py: base case `b == 0` gives `(±1, 0)`;
otherwise the extended Euclidean recurrence with SMALL-mode quotients,
followed by the final sign normalization. -/
def bezout (a b : Int) : Except Err (Int × Int) :=
  if a = 0 ∧ b = 0 then .error .undefinedGCD
  else if b = 0 then
    (if 0 < a then .ok (1, 0) else .ok (-1, 0))
  else
    let q := (divSmall a b).1
    let r := (divSmall a b).2
    let p := bezoutLoop b r 0 1 1 (-q)
    if 0 < a * p.1 + b * p.2 then .ok p else .ok (-p.1, -p.2)

/-- Invariant of the extended Euclidean loop: if the two coefficient pairs
realize the current dividend and divisor as combinations of `A` and `B`,
the returned pair realizes `± gcd` of the current state. -/
theorem bezoutLoop_spec (A B : Int) (b r xx x yy y : Int) :
    A * xx + B * yy = b → A * x + B * y = r →
    A * (bezoutLoop b r xx x yy y).1 + B * (bezoutLoop b r xx x yy y).2 = gcdLoop b r ∨
      A * (bezoutLoop b r xx x yy y).1 + B * (bezoutLoop b r xx x yy y).2 = -gcdLoop b r := by
  induction b, r, xx, x, yy, y using bezoutLoop.induct with
  | case1 b xx x yy y =>
    intro h1 h2
    rw [bezoutLoop, dif_pos rfl, gcdLoop, dif_pos rfl]
    rcases Int.natAbs_eq b with hb | hb
    · left
      show A * xx + B * yy = (b.natAbs : Int)
      omega
    · right
      show A * xx + B * yy = -(b.natAbs : Int)
      omega
  | case2 b r xx x yy y hr ih =>
    intro h1 h2
    rw [bezoutLoop, dif_neg hr, gcdLoop, dif_neg hr]
    obtain ⟨hid, -, -⟩ := divSmall_spec b r hr
    apply ih h2
    have key : A * (-(divSmall b r).1 * x + xx) + B * (-(divSmall b r).1 * y + yy) =
        -((divSmall b r).1 * r) + b := by
      rw [← h1, ← h2]
      ring
    rw [key]
    omega

/-- C5: for `a`, `b` not both zero, `bezout(a, b)` returns `(x, y)` with
`a*x + b*y` equal to the value returned by the code's `gcd(a, b)` — which
is the mathematical gcd — and that value is strictly positive. -/
theorem c5_bezout (a b : Int) (h : ¬(a = 0 ∧ b = 0)) :
    ∃ x y, bezout a b = Except.ok (x, y) ∧ gcd a b = Except.ok (a * x + b * y) ∧
      a * x + b * y = (Int.gcd a b : Int) ∧ 0 < a * x + b * y := by
  have hgpos : 0 < gcdLoop a b := gcdLoop_pos a b h
  by_cases hb : b = 0
  · subst hb
    have ha : a ≠ 0 := by tauto
    by_cases hapos : 0 < a
    · refine ⟨1, 0, ?_, ?_, ?_, ?_⟩
      · unfold bezout
        rw [if_neg h, if_pos rfl, if_pos hapos]
      · unfold gcd
        rw [if_neg h]
        rw [gcdLoop, dif_pos rfl]
        congr 1
        omega
      · rw [← gcdLoop_eq_gcd, gcdLoop, dif_pos rfl]
        omega
      · omega
    · refine ⟨-1, 0, ?_, ?_, ?_, ?_⟩
      · unfold bezout
        rw [if_neg h, if_pos rfl, if_neg hapos]
      · unfold gcd
        rw [if_neg h]
        rw [gcdLoop, dif_pos rfl]
        congr 1
        omega
      · rw [← gcdLoop_eq_gcd, gcdLoop, dif_pos rfl]
        omega
      · omega
  · obtain ⟨hid, -, -⟩ := divSmall_spec a b hb
    have hinit1 : a * 0 + b * 1 = b := by ring
    have hinit2 : a * 1 + b * (-(divSmall a b).1) = (divSmall a b).2 := by
      have : a * 1 + b * (-(divSmall a b).1) = a - (divSmall a b).1 * b := by ring
      omega
    have hspec := bezoutLoop_spec a b b (divSmall a b).2 0 1 1 (-(divSmall a b).1)
      hinit1 hinit2
    have hloopg : gcdLoop b (divSmall a b).2 = gcdLoop a b := by
      conv_rhs => rw [gcdLoop, dif_neg hb]
    rw [hloopg] at hspec
    set p := bezoutLoop b (divSmall a b).2 0 1 1 (-(divSmall a b).1) with hp
    have hbez : bezout a b =
        if 0 < a * p.1 + b * p.2 then Except.ok p else Except.ok (-p.1, -p.2) := by
      unfold bezout
      rw [if_neg h, if_neg hb]
    rcases hspec with hs | hs
    · have hpos : 0 < a * p.1 + b * p.2 := by omega
      refine ⟨p.1, p.2, ?_, ?_, ?_, hpos⟩
      · rw [hbez, if_pos hpos]
      · unfold gcd
        rw [if_neg h, hs]
      · rw [hs, gcdLoop_eq_gcd]
    · have hneg : ¬(0 < a * p.1 + b * p.2) := by omega
      refine ⟨-p.1, -p.2, ?_, ?_, ?_, ?_⟩
      · rw [hbez, if_neg hneg]
      · unfold gcd
        rw [if_neg h]
        congr 1
        have : a * -p.1 + b * -p.2 = -(a * p.1 + b * p.2) := by ring
        omega
      · rw [← gcdLoop_eq_gcd]
        have : a * -p.1 + b * -p.2 = -(a * p.1 + b * p.2) := by ring
        omega
      · have : a * -p.1 + b * -p.2 = -(a * p.1 + b * p.2) := by ring
        omega

/-- Witness for C5 at `(a, b) = (12, -8)`. -/
theorem c5_bezout_witness :
    ¬((12:Int) = 0 ∧ (-8:Int) = 0) ∧
      ∃ x y, bezout 12 (-8) = Except.ok (x, y) ∧
        gcd 12 (-8) = Except.ok (12 * x + (-8) * y) ∧
        12 * x + (-8) * y = (Int.gcd 12 (-8) : Int) ∧ 0 < 12 * x + (-8) * y :=
  ⟨by decide, c5_bezout 12 (-8) (by decide)⟩

/-! ### Modular inversion and exponentiation -/

/-- Function `mod_inverse(num, mod)` from numth.py.  Note the guard in the source is
`mod < 1`, although its docstring says "any integer greater than 1" and its
error message says "Modulus must be at least 2". -/
def mod_inverse (num m : Int) : Except Err Int :=
  if m < 1 then .error .invalidModulus
  else match gcd num m with
    | .error e => .error e
    | .ok g =>
      if g ≠ 1 then .error .notInvertible
      else match bezout num m with
        | .error e => .error e
        | .ok p => .ok (p.1.fmod m)

/-- C2: the guard `mod < 1` lets `mod == 1` through: `mod_inverse(5, 1)`
returns `0` instead of failing with InvalidModulus. -/
theorem c2_mod_inverse_one :
    mod_inverse 5 1 = Except.ok 0 := by
  simp [mod_inverse, gcd, gcdLoop, bezout, bezoutLoop, divSmall, divDefault]

/-- Function `mod_power(num, exp, mod)` from numth.py: guard `mod < 2`, negative
exponents via `mod_inverse`, then exponentiation by squaring. -/
def mod_power (num exp m : Int) : Except Err Int :=
  if m < 2 then .error .invalidModulus
  else if h1 : exp < 0 then
    match mod_inverse num m with
    | .error e => .error e
    | .ok inv => mod_power inv (-exp) m
  else if exp = 0 then .ok 1
  else if exp = 1 then .ok (num.fmod m)
  else if exp.fmod 2 = 0 then mod_power (num * num) (exp.fdiv 2) m
  else
    match mod_power (num * num) (exp.fdiv 2) m with
    | .error e => .error e
    | .ok v => .ok ((num * v).fmod m)
termination_by if exp < 0 then exp.natAbs + 1 else exp.natAbs
decreasing_by
  · have hpos : ¬(-exp < 0) := by omega
    simp only [if_pos h1, if_neg hpos]
    omega
  · rename_i hm hzero hone
    have hge : 2 ≤ exp := by omega
    have hfd : exp.fdiv 2 = exp / 2 := Int.fdiv_eq_ediv _ (by omega)
    have hlt : ¬(exp.fdiv 2 < 0) := by rw [hfd]; omega
    simp only [if_neg hlt, if_neg h1]
    rw [hfd]
    omega
  · rename_i hm hzero hone heven
    have hge : 2 ≤ exp := by omega
    have hfd : exp.fdiv 2 = exp / 2 := Int.fdiv_eq_ediv _ (by omega)
    have hlt : ¬(exp.fdiv 2 < 0) := by rw [hfd]; omega
    simp only [if_neg hlt, if_neg h1]
    rw [hfd]
    omega

/-- Reducing 1 modulo `m ≥ 2` gives 1, in floor-mod form. -/
theorem one_fmod (m : Int) (hm : 2 ≤ m) : (1:Int).fmod m = 1 := by
  rw [Int.fmod_eq_emod _ (by omega)]
  exact Int.emod_eq_of_lt (by omega) (by omega)

/-- C6: for `exp ≥ 0` and `mod ≥ 2`, `mod_power(num, exp, mod)` returns
`(num ^ exp) mod mod`. -/
theorem c6_mod_power (num exp m : Int) :
    0 ≤ exp → 2 ≤ m → mod_power num exp m = Except.ok ((num ^ exp.toNat).fmod m) := by
  induction num, exp, m using mod_power.induct with
  | case1 num exp m hm =>
    intro hexp hm2
    omega
  | case2 num exp m hm hneg e he =>
    intro hexp hm2
    omega
  | case3 num exp m hm hneg g hg ih =>
    intro hexp hm2
    omega
  | case4 num m hm h0 =>
    intro hexp hm2
    rw [mod_power, if_neg hm, dif_neg (by omega), if_pos rfl]
    rw [show ((0:Int)).toNat = 0 from rfl, pow_zero, one_fmod m hm2]
  | case5 num m hm h0 h1 =>
    intro hexp hm2
    rw [mod_power, if_neg hm, dif_neg (by omega), if_neg (by omega), if_pos rfl]
    rw [show ((1:Int)).toNat = 1 from rfl, pow_one]
  | case6 num exp m hm hneg hz hone heven ih =>
    intro hexp hm2
    rw [mod_power, if_neg hm, dif_neg hneg, if_neg hz, if_neg hone, if_pos heven]
    rw [ih (by
      rw [Int.fdiv_eq_ediv _ (by omega)]
      omega) hm2]
    congr 1
    have hfd : exp.fdiv 2 = exp / 2 := Int.fdiv_eq_ediv _ (by omega)
    have hfm : exp.fmod 2 = exp % 2 := Int.fmod_eq_emod _ (by omega)
    rw [hfm] at heven
    have hk : exp.toNat = (exp.fdiv 2).toNat + (exp.fdiv 2).toNat := by
      rw [hfd]
      omega
    rw [mul_pow, ← pow_add, ← hk]
  | case7 num exp m hm hneg hz hone hodd e he ih =>
    intro hexp hm2
    exfalso
    rw [ih (by
      rw [Int.fdiv_eq_ediv _ (by omega)]
      omega) hm2] at he
    exact Except.noConfusion he
  | case8 num exp m hm hneg hz hone hodd g hg ih =>
    intro hexp hm2
    have hfd : exp.fdiv 2 = exp / 2 := Int.fdiv_eq_ediv _ (by omega)
    have hfd2 : 0 ≤ exp.fdiv 2 := by
      rw [hfd]
      omega
    rw [mod_power, if_neg hm, dif_neg hneg, if_neg hz, if_neg hone, if_neg hodd,
      ih hfd2 hm2]
    show Except.ok ((num * (((num * num) ^ (exp.fdiv 2).toNat).fmod m)).fmod m) = _
    congr 1
    have hfm : exp.fmod 2 = exp % 2 := Int.fmod_eq_emod _ (by omega)
    rw [hfm] at hodd
    have hk : exp.toNat = ((exp.fdiv 2).toNat + (exp.fdiv 2).toNat) + 1 := by
      rw [hfd]
      omega
    rw [hk, pow_succ]
    simp only [Int.fmod_eq_emod _ (show (0:Int) ≤ m by omega)]
    rw [Int.mul_emod num _ m, Int.emod_emod_of_dvd _ (dvd_refl m), ← Int.mul_emod]
    congr 1
    rw [mul_pow, ← pow_add]
    ring

/-- Witness for C6 at `(num, exp, mod) = (3, 5, 7)`. -/
theorem c6_mod_power_witness :
    (0:Int) ≤ 5 ∧ (2:Int) ≤ 7 ∧
      mod_power 3 5 7 = Except.ok (((3:Int) ^ ((5:Int)).toNat).fmod 7) :=
  ⟨by decide, by decide, c6_mod_power 3 5 7 (by decide) (by decide)⟩

/-! ### p-adic valuation -/

/-- The `while rest % base == 0` loop of `padic` (numth.py), with explicit
fuel: one unit of fuel is consumed per division step; `none` means the
fuel ran out before the loop exited. -/
def padicLoop (fuel : Nat) (base : Int) (exp : Nat) (rest : Int) : Option (Nat × Int) :=
  match fuel with
  | 0 => none
  | f+1 =>
    if rest.fmod base = 0 then padicLoop f base (exp+1) (rest.fdiv base)
    else some (exp, rest)

/-- Function `padic(num, base)` from numth.py: raises for `base < 2`, otherwise runs
the division loop starting from `exp = 0`, `rest = num`. -/
def padic (num base : Int) (fuel : Nat) : Option (Except Err (Nat × Int)) :=
  if base < 2 then some (.error .invalidBase)
  else (padicLoop fuel base 0 num).map .ok

/-- Starting the loop at accumulator `e` shifts the returned exponent by `e`. -/
theorem padicLoop_shift (base : Int) :
    ∀ (f : Nat) (e : Nat) (rest : Int),
      padicLoop f base e rest =
        (padicLoop f base 0 rest).map (fun pr => (e + pr.1, pr.2)) := by
  intro f
  induction f with
  | zero =>
    intro e rest
    rfl
  | succ f ih =>
    intro e rest
    show (if rest.fmod base = 0 then padicLoop f base (e+1) (rest.fdiv base)
        else some (e, rest)) =
      (if rest.fmod base = 0 then padicLoop f base (0+1) (rest.fdiv base)
        else some (0, rest)).map (fun pr => (e + pr.1, pr.2))
    by_cases h : rest.fmod base = 0
    · rw [if_pos h, if_pos h, ih (e+1), ih (0+1)]
      cases padicLoop f base 0 (rest.fdiv base) with
      | none => rfl
      | some pr =>
        simp only [Option.map_some']
        have : e + 1 + pr.1 = e + (0 + 1 + pr.1) := by omega
        rw [this]
    · rw [if_neg h, if_neg h]
      simp only [Option.map_some']
      rw [Nat.add_zero]

/-- Soundness of the loop: a returned pair `(e, r)` factors the input as
`base ^ e * r` with `r` not divisible by `base`. -/
theorem padicLoop_sound (base : Int) :
    ∀ (f : Nat) (rest : Int) (e : Nat) (r : Int),
      padicLoop f base 0 rest = some (e, r) →
      rest = base ^ e * r ∧ r.fmod base ≠ 0 := by
  intro f
  induction f with
  | zero =>
    intro rest e r h
    exact Option.noConfusion h
  | succ f ih =>
    intro rest e r h
    rw [show padicLoop (f+1) base 0 rest =
        (if rest.fmod base = 0 then padicLoop f base (0+1) (rest.fdiv base)
          else some (0, rest)) from rfl] at h
    by_cases hdvd : rest.fmod base = 0
    · rw [if_pos hdvd, padicLoop_shift base f (0+1) (rest.fdiv base)] at h
      cases hx : padicLoop f base 0 (rest.fdiv base) with
      | none =>
        rw [hx] at h
        exact Option.noConfusion h
      | some pr =>
        rw [hx] at h
        simp only [Option.map_some'] at h
        have he : 0 + 1 + pr.1 = e := congrArg Prod.fst (Option.some.inj h)
        have hrr : pr.2 = r := congrArg Prod.snd (Option.some.inj h)
        obtain ⟨hfac, hnd⟩ := ih (rest.fdiv base) pr.1 pr.2 (by rw [hx])
        have hident := Int.fmod_add_fdiv rest base
        rw [hdvd] at hident
        constructor
        · rw [← he, ← hrr]
          have : base ^ (0 + 1 + pr.1) = base * base ^ pr.1 := by
            rw [show 0 + 1 + pr.1 = pr.1 + 1 from by omega, pow_succ]
            ring
          rw [this]
          calc rest = base * rest.fdiv base := by omega
            _ = base * (base ^ pr.1 * pr.2) := by rw [← hfac]
            _ = base * base ^ pr.1 * pr.2 := by ring
        · rw [← hrr]
          exact hnd
    · rw [if_neg hdvd] at h
      have he : (0:Nat) = e := congrArg Prod.fst (Option.some.inj h)
      have hrr : rest = r := congrArg Prod.snd (Option.some.inj h)
      subst he
      subst hrr
      exact ⟨by rw [pow_zero, one_mul], hdvd⟩

/-- More fuel never changes a result that was already reached. -/
theorem padicLoop_mono (base : Int) :
    ∀ (f g : Nat) (e : Nat) (rest : Int) (x : Nat × Int), f ≤ g →
      padicLoop f base e rest = some x → padicLoop g base e rest = some x := by
  intro f
  induction f with
  | zero =>
    intro g e rest x hle h
    exact Option.noConfusion h
  | succ f ih =>
    intro g e rest x hle h
    obtain ⟨g', rfl⟩ : ∃ g', g = g' + 1 := ⟨g - 1, by omega⟩
    rw [show padicLoop (f+1) base e rest =
        (if rest.fmod base = 0 then padicLoop f base (e+1) (rest.fdiv base)
          else some (e, rest)) from rfl] at h
    rw [show padicLoop (g'+1) base e rest =
        (if rest.fmod base = 0 then padicLoop g' base (e+1) (rest.fdiv base)
          else some (e, rest)) from rfl]
    by_cases hdvd : rest.fmod base = 0
    · rw [if_pos hdvd] at h ⊢
      exact ih g' (e+1) (rest.fdiv base) x (by omega) h
    · rw [if_neg hdvd] at h ⊢
      exact h

/-- Termination of the loop on nonzero input: `natAbs rest + 1` units of
fuel always suffice when `base ≥ 2`. -/
theorem padicLoop_term (base : Int) (hbase : 2 ≤ base) :
    ∀ (n : Nat) (rest : Int), rest.natAbs ≤ n → rest ≠ 0 →
      ∃ e r, padicLoop (n+1) base 0 rest = some (e, r) := by
  intro n
  induction n using Nat.strong_induction_on with
  | _ n ih =>
    intro rest hle hne
    rw [show padicLoop (n+1) base 0 rest =
        (if rest.fmod base = 0 then padicLoop n base (0+1) (rest.fdiv base)
          else some (0, rest)) from rfl]
    by_cases hdvd : rest.fmod base = 0
    · rw [if_pos hdvd]
      have hident := Int.fmod_add_fdiv rest base
      rw [hdvd] at hident
      have hfac : rest = base * rest.fdiv base := by omega
      have hne' : rest.fdiv base ≠ 0 := by
        intro h0
        rw [h0, mul_zero] at hfac
        exact hne hfac
      have habs : rest.natAbs = base.natAbs * (rest.fdiv base).natAbs := by
        conv_lhs => rw [hfac]
        exact Int.natAbs_mul base (rest.fdiv base)
      have hlt : (rest.fdiv base).natAbs < rest.natAbs := by
        have h1 : 1 ≤ (rest.fdiv base).natAbs := Int.natAbs_pos.mpr hne'
        have h2 : 2 ≤ base.natAbs := by omega
        calc (rest.fdiv base).natAbs < 2 * (rest.fdiv base).natAbs := by omega
          _ ≤ base.natAbs * (rest.fdiv base).natAbs := by
            exact Nat.mul_le_mul_right _ h2
          _ = rest.natAbs := habs.symm
      obtain ⟨e, r, hr⟩ := ih (rest.fdiv base).natAbs (by omega) (rest.fdiv base)
        (le_refl _) hne'
      have hmono := padicLoop_mono base ((rest.fdiv base).natAbs + 1) n 0
        (rest.fdiv base) (e, r) (by omega) hr
      rw [padicLoop_shift base n (0+1) (rest.fdiv base), hmono]
      exact ⟨0 + 1 + e, r, rfl⟩
    · rw [if_neg hdvd]
      exact ⟨0, rest, rfl⟩

/-- The loop never exits on input `0`: zero stays divisible forever. -/
theorem padicLoop_zero (base : Int) :
    ∀ (f : Nat) (e : Nat), padicLoop f base e 0 = none := by
  intro f
  induction f with
  | zero =>
    intro e
    rfl
  | succ f ih =>
    intro e
    rw [show padicLoop (f+1) base e 0 =
        (if (0:Int).fmod base = 0 then padicLoop f base (e+1) ((0:Int).fdiv base)
          else some (e, 0)) from rfl]
    rw [if_pos (Int.zero_fmod base), Int.zero_fdiv]
    exact ih (e+1)

/-- C4: for `base ≥ 2`, `padic(num, base)` terminates on every `num ≠ 0`
with `num = base ^ exp * rest` and `rest` not divisible by `base`, while on
`num = 0` the division loop never exits, whatever the fuel. -/
theorem c4_padic (num base : Int) (hbase : 2 ≤ base) :
    (num ≠ 0 → ∃ fuel e r, padic num base fuel = some (Except.ok (e, r)) ∧
        num = base ^ e * r ∧ r.fmod base ≠ 0) ∧
    (num = 0 → ∀ fuel, padic num base fuel = none) := by
  have hb : ¬(base < 2) := by omega
  constructor
  · intro hne
    obtain ⟨e, r, hr⟩ := padicLoop_term base hbase num.natAbs num (le_refl _) hne
    obtain ⟨hfac, hnd⟩ := padicLoop_sound base (num.natAbs + 1) num e r hr
    refine ⟨num.natAbs + 1, e, r, ?_, hfac, hnd⟩
    unfold padic
    rw [if_neg hb, hr]
    rfl
  · intro h0 fuel
    subst h0
    unfold padic
    rw [if_neg hb, padicLoop_zero base fuel 0]
    rfl

/-- Witness for C4 at `num = 12`, `base = 2`. -/
theorem c4_padic_witness :
    (2:Int) ≤ 2 ∧ ∃ fuel e r, padic 12 2 fuel = some (Except.ok (e, r)) ∧
      (12:Int) = 2 ^ e * r ∧ r.fmod 2 ≠ 0 :=
  ⟨by decide, (c4_padic 12 2 (by decide)).1 (by decide)⟩

/-! ### Jacobi symbol -/

/-- Function `jacobi(a, b)` from numth.py, with fuel for its recursion and for the
embedded `padic` loop (`none` = fuel ran out; the source recurses without
bound).  When `b` is even the source executes
`raise ValueError('... ( {} | {} ) ...'.format(num, mod))`, but `num` and
`mod` are not names in scope in `jacobi`, so building the message raises
`NameError` before the `ValueError` exists; this is modelled by
`Err.nameError`. -/
def jacobi (fuel : Nat) (a b : Int) : Option (Except Err Int) :=
  match fuel with
  | 0 => none
  | f+1 =>
    if b.fmod 2 = 0 then some (.error .nameError)
    else if b = 1 then some (.ok 1)
    else match gcd a b with
      | .error e => some (.error e)
      | .ok g =>
        if g ≠ 1 then some (.ok 0)
        else match padicLoop f 2 0 (a.fmod b) with
          | none => none
          | some (exp, a1) =>
            let sgn : Int :=
              if exp % 2 = 1 ∧ (b.fmod 8 = 3 ∨ b.fmod 8 = 5) then -1 else 1
            if a1 = 1 then some (.ok sgn)
            else
              let sgn2 : Int :=
                if b.fmod 4 ≠ 1 ∧ a1.fmod 4 ≠ 1 then -sgn else sgn
              match jacobi f b a1 with
              | none => none
              | some (.error e) => some (.error e)
              | some (.ok j) => some (.ok (sgn2 * j))

/-- C3: for even `b` the call fails, but with `NameError` (the error
message references the undefined names `num` and `mod`), not with the
intended UndefinedJacobiSymbol `ValueError`. -/
theorem c3_jacobi_even (a b : Int) (fuel : Nat) (hb : b.fmod 2 = 0)
    (hf : 1 ≤ fuel) : jacobi fuel a b = some (Except.error Err.nameError) := by
  obtain ⟨f, rfl⟩ : ∃ f, fuel = f + 1 := ⟨fuel - 1, by omega⟩
  rw [jacobi, if_pos hb]

/-- Witness for C3 at `a = 1`, `b = 2`, one unit of fuel. -/
theorem c3_jacobi_even_witness :
    (2:Int).fmod 2 = 0 ∧ 1 ≤ 1 ∧
      jacobi 1 1 2 = some (Except.error Err.nameError) :=
  ⟨by decide, by decide, c3_jacobi_even 1 2 1 (by decide) (by decide)⟩

/-! ### ModularRing (modular_ring.py)

The class works with Python ints that stay in `[0, modulus)`, so residues
and the modulus are embedded as `Nat`.  The collaborators imported from
`numth.basic`, `numth.factorization` and `numth.modular` (`factor`,
`euler_phi`, `carmichael_lambda`, `prime_to`, `mod_power`) are not part of
the sources; they are modelled from the spec (§6 collaborator contracts),
as marked on each definition below. -/

/-- Modelled from the spec: the missing `prime_to(factorization)`
collaborator — "ascending sequence of all residues in `[1, n)` coprime to
`n`". -/
def prime_to (n : Nat) : List Nat :=
  (List.range n).filter (fun k => Nat.gcd k n == 1)

/-- Modelled from the spec: the missing `euler_phi(factorization)`
collaborator — the size of the multiplicative group (glossary: "Euler
totient: size of the multiplicative group"). -/
def euler_phi (n : Nat) : Nat := (prime_to n).length

/-- Modelled from the spec: trial division used by the missing `factor`
collaborator.  Returns the smallest `k' ≥ k` dividing `n` among the next
`fuel` candidates, and `n` itself if none is found. -/
def smallestFacFrom (n : Nat) : Nat → Nat → Nat
  | _, 0 => n
  | k, f+1 => if n % k = 0 then k else smallestFacFrom n (k+1) f

/-- Modelled from the spec: the ascending list of prime factors of `n`
with multiplicity (the missing `factor` collaborator flattened the way
`Counter(...).elements()` flattens it), by repeated smallest-factor
extraction; `fuel = n` always suffices. -/
def pfl : Nat → Nat → List Nat
  | 0, _ => []
  | f+1, n =>
    if n ≤ 1 then []
    else
      let p := smallestFacFrom n 2 n
      p :: pfl f (n / p)

/-- Modelled from the spec: `factor(n)` as a mapping prime → exponent,
in ascending prime order. -/
def factor (n : Nat) : List (Nat × Nat) :=
  (pfl n n).dedup.map (fun p => (p, (pfl n n).count p))

/-- Modelled from the spec: `λ(p^e)` — `λ(2)=1`, `λ(4)=2`,
`λ(2^e)=2^(e-2)` for `e ≥ 3`, `λ(p^e)=φ(p^e)` for odd `p`. -/
def lambda_pp (p e : Nat) : Nat :=
  if p = 2 then
    (if e = 1 then 1 else if e = 2 then 2 else 2 ^ (e - 2))
  else p ^ (e - 1) * (p - 1)

/-- Modelled from the spec: the missing `carmichael_lambda(factorization)`
collaborator — "lcm over prime powers `p^e` of `λ(p^e)`". -/
def carmichael_lambda (n : Nat) : Nat :=
  (factor n).foldr (fun pe acc => Nat.lcm (lambda_pp pe.1 pe.2) acc) 1

/-- Method `carmichael_primes()` (modular_ring.py): each prime factor of the
Carmichael exponent repeated by its multiplicity
(`Counter(self.carmichael_factorization()).elements()`). -/
def carmichael_primes (n : Nat) : List Nat := pfl (carmichael_lambda n) (carmichael_lambda n)

/-- Method `is_cyclic()` (modular_ring.py): `euler() == carmichael()`. -/
def is_cyclic (n : Nat) : Bool := euler_phi n == carmichael_lambda n

/-- Method `mult` (modular_ring.py): multiply and reduce modulo the modulus. -/
def mult (n x y : Nat) : Nat := x * y % n

/-- Method `power_of` (modular_ring.py) delegates to the missing
`mod_power(element, exponent, modulus)` collaborator; modelled from the
spec contract `mod_power(num, exp, mod) == (num^exp) mod mod`. -/
def power_of (n x e : Nat) : Nat := x ^ e % n

/-- The seeded order table of a fresh `ModularRing`: `{1: 1}` for modulus
2, `{1: 1, modulus-1: 2}` otherwise (`__init__` in modular_ring.py). -/
def orders0 (n : Nat) : List (Nat × Nat) :=
  if n = 2 then [(1, 1)] else [(1, 1), (n - 1, 2)]

/-- One round of `order_of`'s divisor search (modular_ring.py):
`{p*e : power_of(x, p) for e, x in powers.items() if p*e not in powers.keys()}`. -/
def new_powers (n p : Nat) (powers : List (Nat × Nat)) : List (Nat × Nat) :=
  (powers.filter (fun ex => !decide ((p * ex.1) ∈ powers.map Prod.fst))).map
    (fun ex => (p * ex.1, power_of n ex.2 p))

/-- The `for p in self.carmichael_primes()` loop of `order_of`
(modular_ring.py): extend the power table by one prime factor at a time;
return the least newly found exponent whose power is 1, `none` when the
loop falls off the end (Python returns `None` there). -/
def order_go (n : Nat) : List Nat → List (Nat × Nat) → Option Nat
  | [], _ => none
  | p :: ps, powers =>
    match (((new_powers n p powers).filter (fun ex => ex.2 == 1)).map Prod.fst).min? with
    | some mi => some mi
    | none => order_go n ps (powers ++ new_powers n p powers)

/-- Method `order_of(element)` (modular_ring.py) on a fresh ring (seed order
table, no cached generator), parametrized by the output `cprimes` of the
`carmichael_primes` collaborator chain: consult the seeded table, then
run the divisor search from `powers = {1 : element % n}`. -/
def order_of (n x : Nat) (cprimes : List Nat) : Option Nat :=
  match (orders0 n).lookup x with
  | some o => some o
  | none => order_go n cprimes [(1, x % n)]

/-- Wrapper: `order_of` with the ring's own collaborator chain. -/
def order_of_ring (n x : Nat) : Option Nat := order_of n x (carmichael_primes n)

/-- Method `generator()` (modular_ring.py): if cyclic, the first element of the
multiplicative group whose order equals `euler()`; `None` otherwise. -/
def generator (n : Nat) : Option Nat :=
  if is_cyclic n then
    (prime_to n).find? (fun x => order_of_ring n x == some (euler_phi n))
  else none

/-- The `while curr_elem != 1` loop of `cyclic_subgroup_from`
(modular_ring.py), with fuel (the source loops without bound): append
`(curr_power, curr_elem)`, multiply by `element`, repeat until the
current element returns to 1. -/
def cyclicLoop (n element : Nat) (fuel : Nat) (sub : List (Nat × Nat))
    (curr power : Nat) : Option (List (Nat × Nat)) :=
  if curr = 1 then some sub
  else match fuel with
    | 0 => none
    | f+1 => cyclicLoop n element f (sub ++ [(power, curr)])
        (mult n curr element) (power + 1)

/-- Method `cyclic_subgroup_from(element)` (modular_ring.py): the association
list `{0: 1, 1: element, 2: element², ...}` in insertion order.  (The
side effect recording the element's order in `self.orders` is not part of
the returned value and is not modelled.) -/
def cyclic_subgroup_from (n element fuel : Nat) : Option (List (Nat × Nat)) :=
  cyclicLoop n element fuel [(0, 1)] element 1

/-- Method `as_cyclic_group()` (modular_ring.py): the cyclic realization built
from the generator when the ring is cyclic.  Fuel `n` is enough for the
loop, the generator's order being at most `n - 1`. -/
def as_cyclic_group (n : Nat) : Option (List (Nat × Nat)) :=
  if is_cyclic n then (generator n).bind (fun g => cyclic_subgroup_from n g n)
  else none

/-- Method `discrete_log()` (modular_ring.py): the inverted realization
`{x : e for e, x in self.as_cyclic_group().items()}`. -/
def discrete_log (n : Nat) : Option (List (Nat × Nat)) :=
  (as_cyclic_group n).map (fun l => l.map (fun pr => (pr.2, pr.1)))

/-- C9: `ModularRing(7)` round-trip — for every power index `p` in `[0, 6)`,
looking the `p`-th realization element up in the discrete-log table gives
back `p`. -/
theorem c9_discrete_log_roundtrip (p : Nat) (hp : p < 6) :
    ((as_cyclic_group 7).bind (fun cyc => cyc.lookup p)).bind
      (fun x => (discrete_log 7).bind (fun dlog => dlog.lookup x)) = some p := by
  revert hp
  revert p
  decide

/-- Witness for C9 at power index `p = 2`. -/
theorem c9_discrete_log_roundtrip_witness :
    2 < 6 ∧ ((as_cyclic_group 7).bind (fun cyc => cyc.lookup 2)).bind
      (fun x => (discrete_log 7).bind (fun dlog => dlog.lookup x)) = some 2 :=
  ⟨by decide, c9_discrete_log_roundtrip 2 (by decide)⟩

/-! ### C10: the cyclic-subgroup loop -/

/-- Multiplying the current power by the element advances the exponent. -/
theorem mult_pow_step (n x power : Nat) :
    mult n (x ^ power % n) x = x ^ (power + 1) % n := by
  unfold mult
  rw [Nat.mod_mul_mod, ← pow_succ]

/-- Unfolding `cyclicLoop` at zero fuel. -/
theorem cyclicLoop_zero (n x : Nat) (sub : List (Nat × Nat)) (curr power : Nat) :
    cyclicLoop n x 0 sub curr power = if curr = 1 then some sub else none := by
  rw [cyclicLoop]

/-- Unfolding `cyclicLoop` at positive fuel. -/
theorem cyclicLoop_succ (n x f : Nat) (sub : List (Nat × Nat)) (curr power : Nat) :
    cyclicLoop n x (f+1) sub curr power =
      if curr = 1 then some sub
      else cyclicLoop n x f (sub ++ [(power, curr)]) (mult n curr x) (power + 1) := by
  rw [cyclicLoop]

/-- If the loop exits, some positive power of the element is 1 mod `n`. -/
theorem cyclicLoop_exit (n x : Nat) :
    ∀ (fuel power curr : Nat) (sub out : List (Nat × Nat)), curr = x ^ power % n →
      1 ≤ power → cyclicLoop n x fuel sub curr power = some out →
      ∃ j, 1 ≤ j ∧ x ^ j % n = 1 := by
  intro fuel
  induction fuel with
  | zero =>
    intro power curr sub out hcurr hp h
    subst hcurr
    rw [cyclicLoop_zero] at h
    by_cases hc : x ^ power % n = 1
    · exact ⟨power, hp, hc⟩
    · rw [if_neg hc] at h
      exact Option.noConfusion h
  | succ f ih =>
    intro power curr sub out hcurr hp h
    subst hcurr
    rw [cyclicLoop_succ] at h
    by_cases hc : x ^ power % n = 1
    · exact ⟨power, hp, hc⟩
    · rw [if_neg hc, mult_pow_step n x power] at h
      exact ih (power + 1) _ _ out rfl (by omega) h

/-- A positive power congruent to 1 forces the element to be a unit. -/
theorem coprime_of_pow_mod_one (x n j : Nat) (hj : 1 ≤ j) (h : x ^ j % n = 1) :
    Nat.gcd x n = 1 := by
  have hd1 : Nat.gcd x n ∣ x := Nat.gcd_dvd_left x n
  have hd2 : Nat.gcd x n ∣ n := Nat.gcd_dvd_right x n
  have hdx : Nat.gcd x n ∣ x ^ j := dvd_pow hd1 (by omega)
  have hq : x ^ j = n * (x ^ j / n) + 1 := by
    have := Nat.div_add_mod (x ^ j) n
    omega
  have hnq : Nat.gcd x n ∣ n * (x ^ j / n) := Dvd.dvd.mul_right hd2 _
  have h1 : Nat.gcd x n ∣ 1 := (Nat.dvd_add_right hnq).mp (hq ▸ hdx)
  exact Nat.dvd_one.mp h1

/-- When `k` is the least positive exponent with `x ^ k ≡ 1`, a successful
run of the loop from power `power ≤ k` appends exactly the entries
`(power, x^power mod n), …, (k-1, x^(k-1) mod n)`. -/
theorem cyclicLoop_sound (n x k : Nat) (hk1 : x ^ k % n = 1)
    (hmin : ∀ j, 0 < j → j < k → x ^ j % n ≠ 1) :
    ∀ (fuel power curr : Nat) (sub out : List (Nat × Nat)), curr = x ^ power % n →
      1 ≤ power → power ≤ k →
      cyclicLoop n x fuel sub curr power = some out →
      out = sub ++ (List.range' power (k - power)).map (fun i => (i, x ^ i % n)) := by
  intro fuel
  induction fuel with
  | zero =>
    intro power curr sub out hcurr hp hpk h
    subst hcurr
    rw [cyclicLoop_zero] at h
    by_cases hc : x ^ power % n = 1
    · rw [if_pos hc] at h
      have hpk' : ¬(power < k) := fun hlt => hmin power (by omega) hlt hc
      have hpe : power = k := by omega
      subst hpe
      rw [Nat.sub_self]
      simpa using (Option.some.inj h).symm
    · rw [if_neg hc] at h
      exact Option.noConfusion h
  | succ f ih =>
    intro power curr sub out hcurr hp hpk h
    subst hcurr
    rw [cyclicLoop_succ] at h
    by_cases hc : x ^ power % n = 1
    · rw [if_pos hc] at h
      have hpk' : ¬(power < k) := fun hlt => hmin power (by omega) hlt hc
      have hpe : power = k := by omega
      subst hpe
      rw [Nat.sub_self]
      simpa using (Option.some.inj h).symm
    · rw [if_neg hc, mult_pow_step n x power] at h
      have hpk2 : power + 1 ≤ k := by
        rcases Nat.lt_or_ge power k with hlt | hge
        · omega
        · have hpe : power = k := by omega
          subst hpe
          exact absurd hk1 hc
      have hout := ih (power + 1) _ (sub ++ [(power, x ^ power % n)]) out rfl
        (by omega) hpk2 h
      rw [hout, List.append_assoc]
      congr 1
      rw [show k - power = (k - (power+1)) + 1 from by omega, List.range'_succ,
        List.map_cons]
      rfl

/-- With `x ^ k ≡ 1` and `k` minimal, fuel `k - power` lets the loop finish
from power `power`. -/
theorem cyclicLoop_completes (n x k : Nat) (hk1 : x ^ k % n = 1)
    (hmin : ∀ j, 0 < j → j < k → x ^ j % n ≠ 1) :
    ∀ (d power : Nat) (sub : List (Nat × Nat)), power + d = k → 1 ≤ power →
      ∃ out, cyclicLoop n x d sub (x ^ power % n) power = some out := by
  intro d
  induction d with
  | zero =>
    intro power sub hpd hp
    have hpe : power = k := by omega
    subst hpe
    refine ⟨sub, ?_⟩
    rw [cyclicLoop_zero, if_pos hk1]
  | succ f ih =>
    intro power sub hpd hp
    have hc : x ^ power % n ≠ 1 := hmin power (by omega) (by omega)
    rw [cyclicLoop_succ, if_neg hc, mult_pow_step n x power]
    exact ih (power + 1) _ (by omega) (by omega)

/-- C10: for modulus `n ≥ 2` and element in `[0, n)`,
`cyclic_subgroup_from(element)` terminates for some fuel exactly when the
element is a unit, and any successful run returns
`{i : element^i mod n}` for `0 ≤ i < k` with `k` the least positive
exponent whose power is 1. -/
theorem c10_cyclic_subgroup_from (n x : Nat) (hn : 2 ≤ n) (hx : x < n) :
    ((∃ fuel out, cyclic_subgroup_from n x fuel = some out) ↔ Nat.gcd x n = 1) ∧
    (∀ fuel out, cyclic_subgroup_from n x fuel = some out →
      ∃ k, 0 < k ∧ x ^ k % n = 1 ∧ (∀ j, 0 < j → j < k → x ^ j % n ≠ 1) ∧
        out = (List.range k).map (fun i => (i, x ^ i % n))) := by
  have hx1 : x = x ^ 1 % n := by rw [pow_one, Nat.mod_eq_of_lt hx]
  constructor
  · constructor
    · rintro ⟨fuel, out, h⟩
      obtain ⟨j, hj1, hj⟩ := cyclicLoop_exit n x fuel 1 x [(0, 1)] out hx1
        (le_refl 1) h
      exact coprime_of_pow_mod_one x n j hj1 hj
    · intro hgcd
      have hcop : Nat.Coprime x n := hgcd
      have htot := Nat.ModEq.pow_totient hcop
      have hφ1 : x ^ Nat.totient n % n = 1 := by
        have h1n : (1:Nat) % n = 1 := Nat.mod_eq_of_lt (by omega)
        unfold Nat.ModEq at htot
        rw [htot, h1n]
      have hφpos : 0 < Nat.totient n := Nat.totient_pos.mpr (by omega)
      have hex : ∃ j, 0 < j ∧ x ^ j % n = 1 := ⟨Nat.totient n, hφpos, hφ1⟩
      set K := Nat.find hex with hK
      obtain ⟨hKpos, hKone⟩ := Nat.find_spec hex
      have hKmin : ∀ j, 0 < j → j < K → x ^ j % n ≠ 1 := by
        intro j hj0 hjK hje
        exact Nat.find_min hex hjK ⟨hj0, hje⟩
      obtain ⟨out, hout⟩ := cyclicLoop_completes n x K hKone hKmin (K - 1) 1 [(0, 1)]
        (by omega) (le_refl 1)
      rw [← hx1] at hout
      exact ⟨K - 1, out, hout⟩
  · intro fuel out h
    obtain ⟨j, hj1, hj⟩ := cyclicLoop_exit n x fuel 1 x [(0, 1)] out hx1
      (le_refl 1) h
    have hex : ∃ j, 0 < j ∧ x ^ j % n = 1 := ⟨j, hj1, hj⟩
    set K := Nat.find hex with hK
    obtain ⟨hKpos, hKone⟩ := Nat.find_spec hex
    have hKmin : ∀ j, 0 < j → j < K → x ^ j % n ≠ 1 := by
      intro j' hj0 hjK hje
      exact Nat.find_min hex hjK ⟨hj0, hje⟩
    refine ⟨K, hKpos, hKone, hKmin, ?_⟩
    have hout := cyclicLoop_sound n x K hKone hKmin fuel 1 x [(0, 1)] out hx1
      (le_refl 1) (by omega) h
    rw [hout, List.range_eq_range',
      show K = (K - 1) + 1 from by omega, List.range'_succ, List.map_cons]
    have h01 : x ^ 0 % n = 1 := by
      rw [pow_zero]
      exact Nat.mod_eq_of_lt (by omega)
    rw [h01]
    rfl

/-- Witness for C10 at `n = 7`, `x = 3`. -/
theorem c10_cyclic_subgroup_from_witness :
    2 ≤ 7 ∧ 3 < 7 ∧
      (((∃ fuel out, cyclic_subgroup_from 7 3 fuel = some out) ↔ Nat.gcd 3 7 = 1) ∧
      (∀ fuel out, cyclic_subgroup_from 7 3 fuel = some out →
        ∃ k, 0 < k ∧ 3 ^ k % 7 = 1 ∧ (∀ j, 0 < j → j < k → 3 ^ j % 7 ≠ 1) ∧
          out = (List.range k).map (fun i => (i, 3 ^ i % 7)))) :=
  ⟨by decide, by decide, c10_cyclic_subgroup_from 7 3 (by decide) (by decide)⟩

/-! ### C8: the order search divides the Carmichael exponent -/

/-- Squaring `n-1` gives 1 modulo `n`. -/
theorem seed_sq_mod (n : Nat) (hn : 2 ≤ n) : (n-1) * (n-1) % n = 1 := by
  have hval : (n-1) * (n-1) = (n-2) * n + 1 := by
    obtain ⟨k, rfl⟩ : ∃ k, n = k + 2 := ⟨n - 2, by omega⟩
    show (k+1) * (k+1) = k * (k+2) + 1
    ring
  rw [hval, Nat.add_comm, Nat.add_mul_mod_self_right]
  exact Nat.mod_eq_of_lt (by omega)

/-- If an exponent annihilates `n-1` modulo `n ≥ 3`, it is even: the seeded
order 2 of `modulus - 1` divides any annihilating exponent. -/
theorem seed_two_dvd (n lam : Nat) (hn : 3 ≤ n)
    (hannih : (n-1) ^ lam % n = 1) : 2 ∣ lam := by
  by_cases h2 : lam % 2 = 0
  · exact Nat.dvd_of_mod_eq_zero h2
  · exfalso
    have hm : lam = 2 * (lam / 2) + 1 := by omega
    have hsq := seed_sq_mod n (by omega)
    have hpow : (n-1) ^ lam % n = n - 1 := by
      rw [hm, pow_succ, pow_mul, Nat.mul_mod, Nat.pow_mod, pow_two, hsq, one_pow]
      have h1n : 1 % n = 1 := Nat.mod_eq_of_lt (by omega)
      rw [h1n, one_mul, Nat.mod_mod_of_dvd _ (dvd_refl n)]
      exact Nat.mod_eq_of_lt (by omega)
    omega

/-- Every entry of `new_powers` comes from an old entry whose key was
extended by the prime `p`. -/
theorem new_powers_shape (n p : Nat) (powers : List (Nat × Nat)) :
    ∀ ex ∈ new_powers n p powers, ∃ ex0, ex0 ∈ powers ∧
      (p * ex0.1) ∉ powers.map Prod.fst ∧ ex = (p * ex0.1, ex0.2 ^ p % n) := by
  intro ex hex
  obtain ⟨ex0, hex0, hfx⟩ := List.mem_map.mp hex
  obtain ⟨hmem, hpred⟩ := List.mem_filter.mp hex0
  refine ⟨ex0, hmem, ?_, ?_⟩
  · intro hin
    rw [Bool.not_eq_true', decide_eq_false_iff_not] at hpred
    exact hpred hin
  · rw [← hfx]
    rfl

/-- Invariant of `order_of`'s divisor search: if the power table's keys
divide the processed product `P`, `P` itself is a key, all table values
are the correct powers of `x`, none of them is 1, and the full exponent
`P * primes.prod` annihilates `x`, then the search succeeds and its
result divides the full exponent. -/
theorem order_go_spec (n x : Nat) :
    ∀ (primes : List Nat) (powers : List (Nat × Nat)) (P : Nat),
      1 ≤ P →
      (∀ e ∈ powers.map Prod.fst, e ∣ P) →
      P ∈ powers.map Prod.fst →
      (∀ pr ∈ powers, pr.2 = x ^ pr.1 % n) →
      (∀ pr ∈ powers, pr.2 ≠ 1) →
      (∀ p ∈ primes, 2 ≤ p) →
      x ^ (P * primes.prod) % n = 1 →
      ∃ k, order_go n primes powers = some k ∧ k ∣ P * primes.prod := by
  intro primes
  induction primes with
  | nil =>
    intro powers P hP hdvd hPmem hvals hno hp2 hann
    exfalso
    rw [List.prod_nil, Nat.mul_one] at hann
    obtain ⟨pr, hpr, hpr1⟩ := List.mem_map.mp hPmem
    have hv := hvals pr hpr
    have hn0 := hno pr hpr
    rw [hpr1] at hv
    rw [hv, hann] at hn0
    exact hn0 rfl
  | cons p ps ih =>
    intro powers P hP hdvd hPmem hvals hno hp2 hann
    have hp2p : 2 ≤ p := hp2 p (List.mem_cons_self p ps)
    have hps2 : ∀ q ∈ ps, 2 ≤ q := fun q hq => hp2 q (List.mem_cons_of_mem p hq)
    have hprodpos : 0 < ps.prod := List.prod_pos (fun q hq => by
      have := hps2 q hq
      omega)
    rw [List.prod_cons] at hann
    rcases hmin : (((new_powers n p powers).filter
        (fun ex => ex.2 == 1)).map Prod.fst).min? with _ | m
    · -- no new power is 1: recurse on the extended table
      have hnil : (new_powers n p powers).filter (fun ex => ex.2 == 1) = [] :=
        List.map_eq_nil.mp (List.min?_eq_none_iff.mp hmin)
      have hnp_no : ∀ ex ∈ new_powers n p powers, ex.2 ≠ 1 := by
        intro ex hex hcontra
        have hmemf : ex ∈ (new_powers n p powers).filter (fun ex => ex.2 == 1) := by
          rw [List.mem_filter]
          exact ⟨hex, by simpa using hcontra⟩
        rw [hnil] at hmemf
        exact absurd hmemf (List.not_mem_nil ex)
      have harr : P * (p * ps.prod) = p * P * ps.prod := by ring
      obtain ⟨k, hk, hkdvd⟩ := ih (powers ++ new_powers n p powers) (p * P)
        (Nat.mul_pos (by omega) (by omega))
        (by
          intro e he
          rw [List.map_append, List.mem_append] at he
          rcases he with he | he
          · exact dvd_mul_of_dvd_right (hdvd e he) p
          · obtain ⟨ex, hex, hex1⟩ := List.mem_map.mp he
            obtain ⟨ex0, hex0, -, hexeq⟩ := new_powers_shape n p powers ex hex
            rw [← hex1, hexeq]
            exact mul_dvd_mul_left p (hdvd ex0.1 (List.mem_map.mpr ⟨ex0, hex0, rfl⟩)))
        (by
          rw [List.map_append, List.mem_append]
          by_cases hin : (p * P) ∈ powers.map Prod.fst
          · exact Or.inl hin
          · right
            obtain ⟨pr, hpr, hpr1⟩ := List.mem_map.mp hPmem
            have hprf : pr ∈ powers.filter
                (fun ex => !decide ((p * ex.1) ∈ powers.map Prod.fst)) := by
              rw [List.mem_filter]
              refine ⟨hpr, ?_⟩
              rw [hpr1]
              simpa using hin
            refine List.mem_map.mpr ⟨(p * pr.1, power_of n pr.2 p), ?_, by rw [hpr1]⟩
            exact List.mem_map.mpr ⟨pr, hprf, rfl⟩)
        (by
          intro pr hpr
          rw [List.mem_append] at hpr
          rcases hpr with hpr | hpr
          · exact hvals pr hpr
          · obtain ⟨ex0, hex0, -, hexeq⟩ := new_powers_shape n p powers pr hpr
            rw [hexeq, hvals ex0 hex0]
            show (x ^ ex0.1 % n) ^ p % n = x ^ (p * ex0.1) % n
            rw [← Nat.pow_mod, ← pow_mul, mul_comm ex0.1 p])
        (by
          intro pr hpr
          rw [List.mem_append] at hpr
          rcases hpr with hpr | hpr
          · exact hno pr hpr
          · exact hnp_no pr hpr)
        hps2
        (by rw [← harr, hann])
      refine ⟨k, ?_, ?_⟩
      · rw [order_go, hmin]
        exact hk
      · rw [List.prod_cons, harr]
        exact hkdvd
    · -- a new power equals 1: the returned minimum is one of the new keys
      have hm_mem : m ∈ ((new_powers n p powers).filter
          (fun ex => ex.2 == 1)).map Prod.fst :=
        List.min?_mem (fun a b => min_choice a b) hmin
      obtain ⟨ex, hexf, hex1⟩ := List.mem_map.mp hm_mem
      have hex : ex ∈ new_powers n p powers := (List.mem_filter.mp hexf).1
      obtain ⟨ex0, hex0, -, hexeq⟩ := new_powers_shape n p powers ex hex
      refine ⟨m, ?_, ?_⟩
      · rw [order_go, hmin]
      · rw [← hex1, hexeq, List.prod_cons]
        show p * ex0.1 ∣ P * (p * ps.prod)
        have h1 : p * ex0.1 ∣ p * P :=
          mul_dvd_mul_left p (hdvd ex0.1 (List.mem_map.mpr ⟨ex0, hex0, rfl⟩))
        have h2 : p * P ∣ P * (p * ps.prod) := by
          refine Dvd.intro ps.prod ?_
          ring
        exact dvd_trans h1 h2

/-- C8: on a fresh ring with modulus `n ≥ 2`, for every unit `x` of the
ring, if the external collaborators satisfy their contracts — the
`carmichael_primes` chain delivers a multiset of primes multiplying to the
Carmichael exponent `lam`, and `lam` (the maximal order) annihilates the
unit — then `order_of` returns a value and that value divides `lam`. -/
theorem c8_order_divides_carmichael (n x lam : Nat) (cprimes : List Nat)
    (hn : 2 ≤ n) (hx : x < n) (hxu : Nat.gcd x n = 1)
    (hp2 : ∀ p ∈ cprimes, 2 ≤ p) (hprod : cprimes.prod = lam)
    (hann : x ^ lam % n = 1) :
    ∃ k, order_of n x cprimes = some k ∧ k ∣ lam := by
  unfold order_of
  by_cases hn2 : n = 2
  · subst hn2
    by_cases hx1 : x = 1
    · subst hx1
      exact ⟨1, rfl, one_dvd lam⟩
    · -- x < 2 and x ≠ 1 means x = 0, not a unit
      exfalso
      have hx0 : x = 0 := by omega
      subst hx0
      exact absurd hxu (by decide)
  · have hn3 : 3 ≤ n := by omega
    have horders : orders0 n = [(1, 1), (n - 1, 2)] := by
      rw [orders0, if_neg hn2]
    by_cases hx1 : x = 1
    · subst hx1
      refine ⟨1, ?_, one_dvd lam⟩
      rw [horders]
      rfl
    · have hne1 : (x == 1) = false := by
        simpa using hx1
      by_cases hxn1 : x = n - 1
      · subst hxn1
        refine ⟨2, ?_, seed_two_dvd n lam hn3 hann⟩
        rw [horders]
        have hlk : List.lookup (n - 1) [(1, 1), (n - 1, 2)] = some 2 := by
          rw [List.lookup_cons, hne1, List.lookup_cons, beq_self_eq_true]
        rw [hlk]
      · -- not seeded: run the search from {1 : x % n}
        have hxmod : x % n = x := Nat.mod_eq_of_lt hx
        have hlook : List.lookup x (orders0 n) = none := by
          rw [horders, List.lookup_cons, hne1, List.lookup_cons,
            show (x == n - 1) = false from by simpa using hxn1]
          rfl
        rw [hlook]
        have hspec := order_go_spec n x cprimes [(1, x % n)] 1
          (le_refl 1)
          (by
            intro e he
            rw [show ([(1, x % n)].map Prod.fst) = [1] from rfl,
              List.mem_singleton] at he
            rw [he])
          (by
            rw [show ([(1, x % n)].map Prod.fst) = [1] from rfl]
            exact List.mem_singleton_self 1)
          (by
            intro pr hpr
            rw [List.mem_singleton] at hpr
            rw [hpr, pow_one])
          (by
            intro pr hpr
            rw [List.mem_singleton] at hpr
            rw [hpr]
            show x % n ≠ 1
            rw [hxmod]
            exact hx1)
          hp2
          (by rw [one_mul, hprod, hann])
        obtain ⟨k, hk, hkdvd⟩ := hspec
        rw [one_mul, hprod] at hkdvd
        exact ⟨k, hk, hkdvd⟩

/-- Witness for C8 at `n = 7`, `x = 2`, Carmichael exponent `6` with prime
multiset `[2, 3]`. -/
theorem c8_order_divides_carmichael_witness :
    2 ≤ 7 ∧ 2 < 7 ∧ Nat.gcd 2 7 = 1 ∧ (∀ p ∈ [2, 3], 2 ≤ p) ∧
      ([2, 3] : List Nat).prod = 6 ∧ 2 ^ 6 % 7 = 1 ∧
      ∃ k, order_of 7 2 [2, 3] = some k ∧ k ∣ 6 :=
  ⟨by decide, by decide, by decide, by decide, by decide, by decide,
    c8_order_divides_carmichael 7 2 6 [2, 3] (by decide) (by decide) (by decide)
      (by decide) (by decide) (by decide)⟩

end Numth
